import Mathlib

/-!
Verification of the integer/field-element limb codec in `halo2-base/src/utils.rs`.

The prime field of order `p` is modelled by canonical representatives: a field
element is a natural number in `[0, p)`, and the external field operations the
code relies on (negation, construction from 64-bit words or a 128-bit value)
are explicit arithmetic modulo `p`.  Machine integers (`u64`, `u128`) are
modelled as natural numbers; under the documented preconditions of each
function none of the modelled bit operations overflows its Rust width, so the
plain `ℕ` bitwise operators agree with the Rust ones.  A Rust panic is
modelled as `Option.none`.
-/

namespace Halo2Base

/-- Little-endian value of a list of 64-bit digits: the integer that a `BigUint`
with these `u64` digits denotes. -/
def valWords (ws : List ℕ) : ℕ := ws.foldr (fun w acc => w + 2 ^ 64 * acc) 0

/-- Fuel-driven digit extraction; `fuel ≥ n` guarantees full decomposition. -/
def toU64DigitsAux : ℕ → ℕ → List ℕ
  | 0, _ => []
  | fuel + 1, n => if n = 0 then [] else n % 2 ^ 64 :: toU64DigitsAux fuel (n / 2 ^ 64)

/-- `BigUint::to_u64_digits` / `BigUint::iter_u64_digits`: the little-endian
`u64` digits of `n`, with no trailing zero digits (`0` has no digits). -/
def toU64Digits (n : ℕ) : List ℕ := toU64DigitsAux n n

/-- Modelled from the spec: additive negation `-x` on the field-element type
(an external collaborator of this core), acting on canonical representatives
modulo `p`. -/
def fneg (p x : ℕ) : ℕ := (p - x) % p

/-- Modelled from the spec: the field's multiplicative identity `F::one()`. -/
def fone (p : ℕ) : ℕ := 1 % p

/-- Modelled from the spec: `F::from_u128`, the field type's construction of a
field element from a 128-bit unsigned integer, reduced modulo `p`. -/
def from_u128 (p x : ℕ) : ℕ := x % p

/-- Modelled from the spec: `F::from(u64)`, construction of a field element
from a single 64-bit unsigned integer. -/
def from_u64 (p x : ℕ) : ℕ := x % p

/-- Modelled from the spec: the `Into<[u64; 4]>` conversion of the field type,
yielding the four little-endian 64-bit words of the canonical representative. -/
def toWords4 (f : ℕ) : List ℕ :=
  [f % 2 ^ 64, f / 2 ^ 64 % 2 ^ 64, f / 2 ^ 128 % 2 ^ 64, f / 2 ^ 192 % 2 ^ 64]

/-- `BigPrimeField::from_u64_digits` (halo2-axiom backend): copies `val` into a
`[u64; 4]` of zeros and builds the field element from those words.  The copy
`raw[..val.len()].copy_from_slice(val)` panics (modelled as `none`) when `val`
has more than four digits.  `Self::from([u64; 4])` is modelled from the spec as
the little-endian value of the four words reduced modulo `p`. -/
def from_u64_digits (p : ℕ) (val : List ℕ) : Option ℕ :=
  if val.length ≤ 4 then some (valWords val % p) else none

/-- `fe_to_biguint`: canonical little-endian byte reinterpretation of the field
element as an unsigned integer; on canonical representatives this is the
identity. -/
def fe_to_biguint (fe : ℕ) : ℕ := fe

/-- `biguint_to_fe` (halo2-axiom backend):
`F::from_u64_digits(&e.to_u64_digits())`. -/
def biguint_to_fe (p e : ℕ) : Option ℕ := from_u64_digits p (toU64Digits e)

/-- `bigint_to_fe` (halo2-axiom backend): split `e` into sign and magnitude
digits, build the field element of the magnitude, and negate it when the sign
is `Minus`. -/
def bigint_to_fe (p : ℕ) (e : ℤ) : Option ℕ :=
  if e < 0 then (from_u64_digits p (toU64Digits e.natAbs)).map (fneg p)
  else from_u64_digits p (toU64Digits e.natAbs)

/-- `modulus`: `fe_to_biguint(&-F::one()) + 1`. -/
def modulus (p : ℕ) : ℕ := fe_to_biguint (fneg p (fone p)) + 1

/-- `power_of_two`: `biguint_to_fe(&(BigUint::one() << n))`. -/
def power_of_two (p n : ℕ) : Option ℕ := biguint_to_fe p (2 ^ n)

/-- `fe_to_bigint`: the canonical unsigned value if it is at most `modulus / 2`,
otherwise the negative of `modulus - value` (a `BigUint` subtraction). -/
def fe_to_bigint (p fe : ℕ) : ℤ :=
  if fe_to_biguint fe ≤ modulus p / 2 then (fe_to_biguint fe : ℤ)
  else -((modulus p - fe_to_biguint fe : ℕ) : ℤ)

/-- Loop body of `decompose_u64_digits_to_limbs`, one recursive step per output
limb.  State: the number of limbs still to produce, the current `u64_digit`,
the digits not yet pulled from the iterator, and `rem`, the number of
unconsumed bits of `u64_digit`. -/
def dudlGo (bit_len mask : ℕ) : ℕ → ℕ → List ℕ → ℕ → List ℕ
  | 0, _, _, _ => []
  | number_of_limbs + 1, u64_digit, ds, rem =>
    match compare rem bit_len with
    | .gt =>
      (u64_digit &&& mask) ::
        dudlGo bit_len mask number_of_limbs (u64_digit >>> bit_len) ds (rem - bit_len)
    | .eq =>
      (u64_digit &&& mask) ::
        dudlGo bit_len mask number_of_limbs (ds.headD 0) ds.tail 64
    | .lt =>
      (u64_digit ||| ((ds.headD 0 &&& (2 ^ (bit_len - rem) - 1)) <<< rem)) ::
        dudlGo bit_len mask number_of_limbs (ds.headD 0 >>> (bit_len - rem)) ds.tail
          (rem + (64 - bit_len))

/-- `decompose_u64_digits_to_limbs(e, number_of_limbs, bit_len)`: sliding
bit-window decomposition of a sequence of 64-bit digits into
`number_of_limbs` limbs of `bit_len` bits (`bit_len < 64`); iterator
exhaustion yields `0`.  `mask = (1u64 << bit_len) - 1`. -/
def decompose_u64_digits_to_limbs (e : List ℕ) (number_of_limbs bit_len : ℕ) : List ℕ :=
  dudlGo bit_len (2 ^ bit_len - 1) number_of_limbs (e.headD 0) e.tail 64

/-- Fuel-driven bit size; for `n < 2 ^ fuel` this is the number of binary
digits of `n`. -/
def sizeAux : ℕ → ℕ → ℕ
  | 0, _ => 0
  | fuel + 1, n => if n = 0 then 0 else sizeAux fuel (n / 2) + 1

/-- Modelled from the spec: `u64::leading_zeros`, the number of leading zero
bits in the 64-bit representation of `x` (meaningful for `x < 2 ^ 64`). -/
def leading_zeros (x : ℕ) : ℕ := 64 - sizeAux 64 x

/-- `bit_length(x)`: `(u64::BITS - x.leading_zeros()) as usize`. -/
def bit_length (x : ℕ) : ℕ := 64 - leading_zeros x

/-- `log2_ceil(x)`:
`(u64::BITS - x.leading_zeros() - (x & (x - 1) == 0) as u32) as usize`. -/
def log2_ceil (x : ℕ) : ℕ :=
  64 - leading_zeros x - (if x &&& (x - 1) = 0 then 1 else 0)

/-- Loop body of `decompose_biguint` (the `(1..num_limbs).map(...)` closure),
one recursive step per remaining limb.  State: limbs still to produce, the
current `u64_digit`, the digits not yet pulled, and `rem`, the number of
unconsumed bits of `u64_digit`. -/
def dbGo (p bit_len : ℕ) : ℕ → ℕ → List ℕ → ℕ → List ℕ
  | 0, _, _, _ => []
  | k + 1, u64_digit, ds, rem =>
    if 64 + rem ≤ bit_len then
      from_u128 p
          ((u64_digit ||| (ds.headD 0 <<< rem)) |||
            ((ds.tail.headD 0 &&& (2 ^ (bit_len - (rem + 64)) - 1)) <<< (rem + 64))) ::
        dbGo p bit_len k (ds.tail.headD 0 >>> (bit_len - (rem + 64))) ds.tail.tail
          (64 - (bit_len - (rem + 64)))
    else
      from_u128 p
          (u64_digit ||| ((ds.headD 0 &&& (2 ^ (bit_len - rem) - 1)) <<< rem)) ::
        dbGo p bit_len k (ds.headD 0 >>> (bit_len - rem)) ds.tail (64 - (bit_len - rem))

/-- `decompose_biguint(e, num_limbs, bit_len)` (`64 ≤ bit_len < 128`): the
first limb fuses the first two 64-bit digits explicitly, the remaining
`num_limbs - 1` limbs come from the loop.  Each 128-bit limb is converted to a
field element with `F::from_u128`. -/
def decompose_biguint (p e num_limbs bit_len : ℕ) : List ℕ :=
  let ds := toU64Digits e
  let rem := bit_len - 64
  let limb0 := ds.headD 0 ||| ((ds.tail.headD 0 &&& (2 ^ rem - 1)) <<< 64)
  from_u128 p limb0 ::
    dbGo p bit_len (num_limbs - 1) (ds.tail.headD 0 >>> rem) ds.tail.tail (64 - rem)

/-- `decompose_bigint(e, num_limbs, bit_len)`: decompose the magnitude and
negate every field limb when `e` is negative. -/
def decompose_bigint (p : ℕ) (e : ℤ) (num_limbs bit_len : ℕ) : List ℕ :=
  if e < 0 then (decompose_biguint p e.natAbs num_limbs bit_len).map (fneg p)
  else decompose_biguint p e.natAbs num_limbs bit_len

/-- `ScalarField::to_u64_limbs` (halo2-axiom backend): decompose the four
64-bit words of the canonical representative. -/
def to_u64_limbs (f num_limbs bit_len : ℕ) : List ℕ :=
  decompose_u64_digits_to_limbs (toWords4 f) num_limbs bit_len

/-- `decompose_fe_to_u64_limbs` (halo2-axiom backend):
`e.to_u64_limbs(number_of_limbs, bit_len)`. -/
def decompose_fe_to_u64_limbs (e number_of_limbs bit_len : ℕ) : List ℕ :=
  to_u64_limbs e number_of_limbs bit_len

/-- `decompose(e, number_of_limbs, bit_len)`: route to the wide-limb codec for
`bit_len > 64`, otherwise to the digit-limb codec on the element's own word
representation, mapping each raw `u64` limb back into the field. -/
def decompose (p e number_of_limbs bit_len : ℕ) : List ℕ :=
  if bit_len > 64 then decompose_biguint p (fe_to_biguint e) number_of_limbs bit_len
  else (decompose_fe_to_u64_limbs e number_of_limbs bit_len).map (from_u64 p)

/-- `compose(input, bit_len)`: fold the limbs from most significant to least
significant, each step computing `(acc << bit_len) + limb`. -/
def compose (input : List ℕ) (bit_len : ℕ) : ℕ :=
  input.reverse.foldl (fun acc val => (acc <<< bit_len) + val) 0

/-- Reference limb extraction: `n` base-`2 ^ bit_len` digits of `v`, least
significant first. -/
def natLimbs (bit_len : ℕ) : ℕ → ℕ → List ℕ
  | 0, _ => []
  | n + 1, v => v % 2 ^ bit_len :: natLimbs bit_len n (v / 2 ^ bit_len)

/-! ### Arithmetic helpers for the sliding bit-window -/

theorem window_bound {d r s m : ℕ} (hd : d < 2 ^ r) (hs : s < 2 ^ m) :
    d + 2 ^ r * s < 2 ^ (r + m) := by
  have h1 : d + 2 ^ r * s < 2 ^ r * (s + 1) := by rw [Nat.mul_succ]; omega
  have h2 : 2 ^ r * (s + 1) ≤ 2 ^ r * 2 ^ m := Nat.mul_le_mul_left _ hs
  rw [pow_add]; omega

theorem add_mul_mod_window {d r y b : ℕ} (hd : d < 2 ^ r) (hrb : r ≤ b) :
    (d + 2 ^ r * y) % 2 ^ b = d + 2 ^ r * (y % 2 ^ (b - r)) := by
  have hy := Nat.div_add_mod y (2 ^ (b - r))
  have hrw : d + 2 ^ r * y
      = d + 2 ^ r * (y % 2 ^ (b - r)) + 2 ^ b * (y / 2 ^ (b - r)) := by
    conv_lhs => rw [← hy]
    rw [show (2 : ℕ) ^ b = 2 ^ r * 2 ^ (b - r) by rw [← pow_add]; congr 1; omega]
    ring
  rw [hrw, Nat.add_mul_mod_self_left, Nat.mod_eq_of_lt]
  have := window_bound hd (Nat.mod_lt y (pow_pos two_pos (b - r)) : y % 2 ^ (b - r) < 2 ^ (b - r))
  rwa [show r + (b - r) = b by omega] at this

theorem add_mul_div_window {d r y b : ℕ} (hd : d < 2 ^ r) (hrb : r ≤ b) :
    (d + 2 ^ r * y) / 2 ^ b = y / 2 ^ (b - r) := by
  have hy := Nat.div_add_mod y (2 ^ (b - r))
  have hrw : d + 2 ^ r * y
      = d + 2 ^ r * (y % 2 ^ (b - r)) + 2 ^ b * (y / 2 ^ (b - r)) := by
    conv_lhs => rw [← hy]
    rw [show (2 : ℕ) ^ b = 2 ^ r * 2 ^ (b - r) by rw [← pow_add]; congr 1; omega]
    ring
  rw [hrw, Nat.add_mul_div_left _ _ (pow_pos two_pos b), Nat.div_eq_of_lt, Nat.zero_add]
  have := window_bound hd (Nat.mod_lt y (pow_pos two_pos (b - r)) : y % 2 ^ (b - r) < 2 ^ (b - r))
  rwa [show r + (b - r) = b by omega] at this

theorem add_mul_mod_low {d r y b : ℕ} (hbr : b ≤ r) :
    (d + 2 ^ r * y) % 2 ^ b = d % 2 ^ b := by
  rw [show (2 : ℕ) ^ r = 2 ^ b * 2 ^ (r - b) by rw [← pow_add]; congr 1; omega,
    mul_assoc, Nat.add_mul_mod_self_left]

theorem add_mul_div_low {d r y b : ℕ} (hbr : b ≤ r) :
    (d + 2 ^ r * y) / 2 ^ b = d / 2 ^ b + 2 ^ (r - b) * y := by
  rw [show (2 : ℕ) ^ r = 2 ^ b * 2 ^ (r - b) by rw [← pow_add]; congr 1; omega,
    mul_assoc, Nat.add_mul_div_left _ _ (pow_pos two_pos b)]

theorem lor_shiftLeft_window {d y r : ℕ} (hd : d < 2 ^ r) :
    d ||| (y <<< r) = d + 2 ^ r * y := by
  rw [Nat.shiftLeft_eq, Nat.lor_comm, mul_comm y, add_comm d]
  exact (Nat.mul_add_lt_is_or hd y).symm

theorem div_pow_lt_pow {x a c : ℕ} (hx : x < 2 ^ (a + c)) : x / 2 ^ a < 2 ^ c := by
  rw [Nat.div_lt_iff_lt_mul (pow_pos two_pos a), ← pow_add, add_comm c a]
  exact hx

/-! ### Digit-list helpers -/

theorem headD_lt_of_forall {ds : List ℕ} (h : ∀ w ∈ ds, w < 2 ^ 64) :
    ds.headD 0 < 2 ^ 64 := by
  cases ds with
  | nil => norm_num
  | cons a t => exact h a (List.mem_cons_self a t)

theorem tail_forall {ds : List ℕ} (h : ∀ w ∈ ds, w < 2 ^ 64) :
    ∀ w ∈ ds.tail, w < 2 ^ 64 :=
  fun w hw => h w (List.mem_of_mem_tail hw)

theorem valWords_head_tail (ds : List ℕ) :
    valWords ds = ds.headD 0 + 2 ^ 64 * valWords ds.tail := by
  cases ds <;> simp [valWords]

theorem valWords_toU64DigitsAux : ∀ fuel n, n ≤ fuel → valWords (toU64DigitsAux fuel n) = n := by
  intro fuel
  induction fuel with
  | zero => intro n hn; interval_cases n; rfl
  | succ fuel ih =>
    intro n hn
    rw [toU64DigitsAux]
    by_cases h0 : n = 0
    · simp [h0, valWords]
    · rw [if_neg h0]
      have hdiv : n / 2 ^ 64 < n := Nat.div_lt_self (Nat.pos_of_ne_zero h0) (by norm_num)
      have : valWords (n % 2 ^ 64 :: toU64DigitsAux fuel (n / 2 ^ 64))
          = n % 2 ^ 64 + 2 ^ 64 * valWords (toU64DigitsAux fuel (n / 2 ^ 64)) := by
        simp [valWords]
      rw [this, ih (n / 2 ^ 64) (by omega), Nat.mod_add_div]

theorem valWords_toU64Digits (n : ℕ) : valWords (toU64Digits n) = n :=
  valWords_toU64DigitsAux n n le_rfl

theorem toU64DigitsAux_mem_lt : ∀ fuel n, ∀ w ∈ toU64DigitsAux fuel n, w < 2 ^ 64 := by
  intro fuel
  induction fuel with
  | zero => intro n w hw; simp [toU64DigitsAux] at hw
  | succ fuel ih =>
    intro n w hw
    rw [toU64DigitsAux] at hw
    by_cases h0 : n = 0
    · simp [h0] at hw
    · rw [if_neg h0] at hw
      rcases List.mem_cons.mp hw with h | h
      · subst h; exact Nat.mod_lt n (by norm_num)
      · exact ih (n / 2 ^ 64) w h

theorem toU64Digits_mem_lt (n : ℕ) : ∀ w ∈ toU64Digits n, w < 2 ^ 64 :=
  toU64DigitsAux_mem_lt n n

theorem toU64DigitsAux_length_le :
    ∀ fuel n k, n < 2 ^ (64 * k) → (toU64DigitsAux fuel n).length ≤ k := by
  intro fuel
  induction fuel with
  | zero => intro n k _; simp [toU64DigitsAux]
  | succ fuel ih =>
    intro n k hk
    rw [toU64DigitsAux]
    by_cases h0 : n = 0
    · simp [h0]
    · rw [if_neg h0]
      have hkpos : 0 < k := by
        rcases Nat.eq_zero_or_pos k with h | h
        · subst h; simp at hk; omega
        · exact h
      have hdiv : n / 2 ^ 64 < 2 ^ (64 * (k - 1)) := by
        apply div_pow_lt_pow
        rwa [show 64 + 64 * (k - 1) = 64 * k by omega]
      have := ih (n / 2 ^ 64) (k - 1) hdiv
      simp only [List.length_cons]
      omega

theorem toU64Digits_length_le {n k : ℕ} (h : n < 2 ^ (64 * k)) :
    (toU64Digits n).length ≤ k :=
  toU64DigitsAux_length_le n n k h

/-! ### Reference-model lemmas -/

theorem natLimbs_length (b n v : ℕ) : (natLimbs b n v).length = n := by
  induction n generalizing v with
  | zero => rfl
  | succ n ih => simp [natLimbs, ih]

theorem natLimbs_getD {b n v i : ℕ} (h : i < n) :
    (natLimbs b n v).getD i 0 = v / 2 ^ (i * b) % 2 ^ b := by
  induction n generalizing v i with
  | zero => omega
  | succ n ih =>
    cases i with
    | zero => simp [natLimbs]
    | succ i =>
      have := ih (v := v / 2 ^ b) (i := i) (by omega)
      simp only [natLimbs, List.getD_cons_succ, this, Nat.div_div_eq_div_mul, ← pow_add]
      congr 2
      ring

theorem natLimbs_mem_lt {b n v : ℕ} : ∀ x ∈ natLimbs b n v, x < 2 ^ b := by
  induction n generalizing v with
  | zero => intro x hx; simp [natLimbs] at hx
  | succ n ih =>
    intro x hx
    rcases List.mem_cons.mp hx with h | h
    · subst h; exact Nat.mod_lt v (pow_pos two_pos b)
    · exact ih x h

theorem natLimbs_map_mod {p b n v : ℕ} (hbp : 2 ^ b ≤ p) :
    (natLimbs b n v).map (fun x => x % p) = natLimbs b n v := by
  induction n generalizing v with
  | zero => rfl
  | succ n ih =>
    simp only [natLimbs, List.map_cons, ih]
    congr 1
    exact Nat.mod_eq_of_lt (lt_of_lt_of_le (Nat.mod_lt v (pow_pos two_pos b)) hbp)

theorem compose_cons (x : ℕ) (l : List ℕ) (b : ℕ) :
    compose (x :: l) b = x + 2 ^ b * compose l b := by
  simp only [compose, List.reverse_cons, List.foldl_append, List.foldl_cons, List.foldl_nil,
    Nat.shiftLeft_eq]
  ring

theorem compose_natLimbs (b n v : ℕ) : compose (natLimbs b n v) b = v % 2 ^ (b * n) := by
  induction n generalizing v with
  | zero => simp [natLimbs, compose, Nat.mod_one]
  | succ n ih =>
    rw [natLimbs, compose_cons, ih, show b * (n + 1) = b * n + b by ring, pow_add,
      mul_comm (2 ^ (b * n)) (2 ^ b), Nat.mod_mul, Nat.add_comm]

/-! ### Correctness of the narrow (digit-limb) codec -/

theorem dudlGo_eq_natLimbs {b : ℕ} (hb : b < 64) :
    ∀ (n d rem : ℕ) (ds : List ℕ), 0 < rem → rem ≤ 64 → d < 2 ^ rem →
      (∀ w ∈ ds, w < 2 ^ 64) →
      dudlGo b (2 ^ b - 1) n d ds rem = natLimbs b n (d + 2 ^ rem * valWords ds) := by
  intro n
  induction n with
  | zero => intro d rem ds _ _ _ _; rfl
  | succ n ih =>
    intro d rem ds hr0 hr64 hd hds
    have hw : ds.headD 0 < 2 ^ 64 := headD_lt_of_forall hds
    rcases Nat.lt_trichotomy rem b with hlt | heq | hgt
    · simp only [dudlGo, Nat.compare_eq_lt.mpr hlt, natLimbs]
      have hremb : rem ≤ b := hlt.le
      have hbr64 : b - rem ≤ 64 := by omega
      congr 1
      · rw [Nat.and_pow_two_sub_one_eq_mod, lor_shiftLeft_window hd,
          valWords_head_tail ds, add_mul_mod_window hd hremb, add_mul_mod_low hbr64]
      · rw [valWords_head_tail ds, add_mul_div_window hd hremb, add_mul_div_low hbr64,
          ← Nat.shiftRight_eq_div_pow,
          show 64 - (b - rem) = rem + (64 - b) by omega]
        exact ih (ds.headD 0 >>> (b - rem)) (rem + (64 - b)) ds.tail (by omega) (by omega)
          (by rw [Nat.shiftRight_eq_div_pow]
              apply div_pow_lt_pow
              rwa [show b - rem + (rem + (64 - b)) = 64 by omega])
          (tail_forall hds)
    · subst heq
      simp only [dudlGo, Nat.compare_eq_eq.mpr rfl, natLimbs]
      congr 1
      · rw [Nat.and_pow_two_sub_one_eq_mod, add_mul_mod_low le_rfl]
      · rw [add_mul_div_low le_rfl, Nat.sub_self, pow_zero, one_mul,
          Nat.div_eq_of_lt hd, Nat.zero_add, valWords_head_tail ds]
        exact ih (ds.headD 0) 64 ds.tail (by norm_num) le_rfl hw (tail_forall hds)
    · simp only [dudlGo, Nat.compare_eq_gt.mpr hgt, natLimbs]
      congr 1
      · rw [Nat.and_pow_two_sub_one_eq_mod, add_mul_mod_low hgt.le]
      · rw [add_mul_div_low hgt.le, ← Nat.shiftRight_eq_div_pow]
        exact ih (d >>> b) (rem - b) ds (by omega) (by omega)
          (by rw [Nat.shiftRight_eq_div_pow]
              apply div_pow_lt_pow
              rwa [show b + (rem - b) = rem by omega])
          hds

theorem decompose_u64_digits_to_limbs_eq {ws : List ℕ} {n b : ℕ} (hb : b < 64)
    (hws : ∀ w ∈ ws, w < 2 ^ 64) :
    decompose_u64_digits_to_limbs ws n b = natLimbs b n (valWords ws) := by
  unfold decompose_u64_digits_to_limbs
  rw [dudlGo_eq_natLimbs hb n (ws.headD 0) 64 ws.tail (by norm_num) le_rfl
    (headD_lt_of_forall hws) (tail_forall hws), ← valWords_head_tail]

/-! ### Correctness of the wide-limb codec -/

theorem dbGo_eq_natLimbs {p b : ℕ} (hb64 : 64 ≤ b) (hb128 : b < 128) :
    ∀ (k d rem : ℕ) (ds : List ℕ), 0 < rem → rem ≤ 64 → d < 2 ^ rem →
      (∀ w ∈ ds, w < 2 ^ 64) →
      dbGo p b k d ds rem
        = (natLimbs b k (d + 2 ^ rem * valWords ds)).map (fun x => x % p) := by
  intro k
  induction k with
  | zero => intro d rem ds _ _ _ _; rfl
  | succ k ih =>
    intro d rem ds hr0 hr64 hd hds
    have hw1 : ds.headD 0 < 2 ^ 64 := headD_lt_of_forall hds
    have hw2 : ds.tail.headD 0 < 2 ^ 64 := headD_lt_of_forall (tail_forall hds)
    have hV : d + 2 ^ rem * valWords ds
        = d + 2 ^ rem * ds.headD 0
          + 2 ^ (rem + 64) * (ds.tail.headD 0 + 2 ^ 64 * valWords ds.tail.tail) := by
      rw [valWords_head_tail ds, valWords_head_tail ds.tail, pow_add]
      ring
    by_cases hcase : 64 + rem ≤ b
    · have hA : d ||| (ds.headD 0 <<< rem) = d + 2 ^ rem * ds.headD 0 :=
        lor_shiftLeft_window hd
      have hAlt : d + 2 ^ rem * ds.headD 0 < 2 ^ (rem + 64) := window_bound hd hw1
      simp only [dbGo, if_pos hcase, natLimbs, List.map_cons]
      congr 1
      · unfold from_u128
        congr 1
        rw [hA, Nat.and_pow_two_sub_one_eq_mod, lor_shiftLeft_window hAlt, hV,
          add_mul_mod_window hAlt (by omega : rem + 64 ≤ b),
          add_mul_mod_low (by omega : b - (rem + 64) ≤ 64)]
      · rw [hV, add_mul_div_window hAlt (by omega : rem + 64 ≤ b),
          add_mul_div_low (by omega : b - (rem + 64) ≤ 64), ← Nat.shiftRight_eq_div_pow]
        exact ih (ds.tail.headD 0 >>> (b - (rem + 64))) (64 - (b - (rem + 64))) ds.tail.tail
          (by omega) (by omega)
          (by rw [Nat.shiftRight_eq_div_pow]
              apply div_pow_lt_pow
              rwa [show b - (rem + 64) + (64 - (b - (rem + 64))) = 64 by omega])
          (tail_forall (tail_forall hds))
    · simp only [dbGo, if_neg hcase, natLimbs, List.map_cons]
      congr 1
      · unfold from_u128
        congr 1
        rw [Nat.and_pow_two_sub_one_eq_mod, lor_shiftLeft_window hd, valWords_head_tail ds,
          add_mul_mod_window hd (by omega : rem ≤ b),
          add_mul_mod_low (by omega : b - rem ≤ 64)]
      · rw [valWords_head_tail ds, add_mul_div_window hd (by omega : rem ≤ b),
          add_mul_div_low (by omega : b - rem ≤ 64), ← Nat.shiftRight_eq_div_pow]
        exact ih (ds.headD 0 >>> (b - rem)) (64 - (b - rem)) ds.tail (by omega) (by omega)
          (by rw [Nat.shiftRight_eq_div_pow]
              apply div_pow_lt_pow
              rwa [show b - rem + (64 - (b - rem)) = 64 by omega])
          (tail_forall hds)

theorem decompose_biguint_eq {p e n b : ℕ} (hb64 : 64 ≤ b) (hb128 : b < 128) :
    decompose_biguint p e n b = (natLimbs b (max n 1) e).map (fun x => x % p) := by
  simp only [decompose_biguint]
  have hds := toU64Digits_mem_lt e
  set ds := toU64Digits e with hds_def
  have hw1 : ds.headD 0 < 2 ^ 64 := headD_lt_of_forall hds
  have hw2 : ds.tail.headD 0 < 2 ^ 64 := headD_lt_of_forall (tail_forall hds)
  have he : e = ds.headD 0 + 2 ^ 64 * (ds.tail.headD 0 + 2 ^ 64 * valWords ds.tail.tail) := by
    rw [← valWords_head_tail ds.tail, ← valWords_head_tail ds, hds_def, valWords_toU64Digits]
  rw [show max n 1 = n - 1 + 1 by omega]
  simp only [natLimbs, List.map_cons]
  congr 1
  · unfold from_u128
    congr 1
    rw [Nat.and_pow_two_sub_one_eq_mod, lor_shiftLeft_window hw1, he,
      add_mul_mod_window hw1 hb64, add_mul_mod_low (by omega : b - 64 ≤ 64)]
  · rw [he, add_mul_div_window hw1 hb64, add_mul_div_low (by omega : b - 64 ≤ 64),
      ← Nat.shiftRight_eq_div_pow]
    exact dbGo_eq_natLimbs hb64 hb128 (n - 1) (ds.tail.headD 0 >>> (b - 64))
      (64 - (b - 64)) ds.tail.tail (by omega) (by omega)
      (by rw [Nat.shiftRight_eq_div_pow]
          apply div_pow_lt_pow
          rwa [show b - 64 + (64 - (b - 64)) = 64 by omega])
      (tail_forall (tail_forall hds))

theorem dbGo_length (p b : ℕ) :
    ∀ (k d rem : ℕ) (ds : List ℕ), (dbGo p b k d ds rem).length = k := by
  intro k
  induction k with
  | zero => intros; rfl
  | succ k ih =>
    intro d rem ds
    by_cases hcase : 64 + rem ≤ b
    · simp only [dbGo, if_pos hcase, List.length_cons, ih]
    · simp only [dbGo, if_neg hcase, List.length_cons, ih]

/-! ### Field / integer conversion helpers -/

theorem modulus_eq {p : ℕ} (hp : 1 < p) : modulus p = p := by
  unfold modulus fe_to_biguint fneg fone
  rw [Nat.mod_eq_of_lt hp, Nat.mod_eq_of_lt (by omega : p - 1 < p)]
  omega

theorem from_u64_digits_toU64Digits {p m : ℕ} (hm : m < 2 ^ 256) :
    from_u64_digits p (toU64Digits m) = some (m % p) := by
  unfold from_u64_digits
  rw [if_pos (toU64Digits_length_le
    (show m < 2 ^ (64 * 4) by rwa [show 64 * 4 = 256 by norm_num])), valWords_toU64Digits]

theorem toU64DigitsAux_length_gt :
    ∀ fuel n k, n ≤ fuel → 2 ^ (64 * k) ≤ n → k < (toU64DigitsAux fuel n).length := by
  intro fuel
  induction fuel with
  | zero =>
    intro n k hn hk
    have : 0 < n := lt_of_lt_of_le (pow_pos two_pos _) hk
    omega
  | succ fuel ih =>
    intro n k hn hk
    have hn0 : n ≠ 0 := by
      have : 0 < n := lt_of_lt_of_le (pow_pos two_pos _) hk
      omega
    rw [toU64DigitsAux, if_neg hn0]
    simp only [List.length_cons]
    cases k with
    | zero => omega
    | succ k =>
      have hdiv_le : n / 2 ^ 64 ≤ fuel := by
        have := Nat.div_lt_self (Nat.pos_of_ne_zero hn0) (show 1 < 2 ^ 64 by norm_num)
        omega
      have hk' : 2 ^ (64 * k) ≤ n / 2 ^ 64 := by
        apply (Nat.le_div_iff_mul_le (Nat.pos_pow_of_pos 64 (by norm_num))).mpr
        calc 2 ^ (64 * k) * 2 ^ 64 = 2 ^ (64 * (k + 1)) := by
              rw [show 64 * (k + 1) = 64 * k + 64 by ring, pow_add]
          _ ≤ n := hk
      have := ih (n / 2 ^ 64) k hdiv_le hk'
      omega

theorem toU64Digits_length_gt {n : ℕ} (h : 2 ^ 256 ≤ n) : 4 < (toU64Digits n).length :=
  toU64DigitsAux_length_gt n n 4 le_rfl
    (by rwa [show 64 * 4 = 256 by norm_num])

/-! ### Bit-size helpers -/

theorem size_succ_div_two {n : ℕ} (hn : 0 < n) : Nat.size n = Nat.size (n / 2) + 1 := by
  have h1 : n / 2 < 2 ^ Nat.size (n / 2) := Nat.lt_size_self _
  apply le_antisymm
  · rw [Nat.size_le, pow_succ]
    omega
  · rcases Nat.eq_zero_or_pos (n / 2) with h | h
    · have hn1 : n = 1 := by omega
      subst hn1
      norm_num [Nat.size_one]
    · have hs : 0 < Nat.size (n / 2) := Nat.size_pos.mpr h
      have h2 : 2 ^ (Nat.size (n / 2) - 1) ≤ n / 2 := Nat.lt_size.mp (by omega)
      have h3 : 2 ^ Nat.size (n / 2) ≤ n := by
        have hp : 2 ^ Nat.size (n / 2) = 2 * 2 ^ (Nat.size (n / 2) - 1) := by
          rw [← pow_succ']
          congr 1
          omega
        have := Nat.div_mul_le_self n 2
        omega
      have := Nat.lt_size.mpr h3
      omega

theorem sizeAux_eq_size : ∀ fuel n, n < 2 ^ fuel → sizeAux fuel n = Nat.size n := by
  intro fuel
  induction fuel with
  | zero =>
    intro n hn
    interval_cases n
    simp [sizeAux, Nat.size_zero]
  | succ fuel ih =>
    intro n hn
    rw [sizeAux]
    by_cases h0 : n = 0
    · simp [h0, Nat.size_zero]
    · rw [if_neg h0, ih (n / 2) (by rw [pow_succ] at hn; omega),
        ← size_succ_div_two (Nat.pos_of_ne_zero h0)]

theorem bit_length_eq_size {x : ℕ} (hx : x < 2 ^ 64) : bit_length x = Nat.size x := by
  unfold bit_length leading_zeros
  rw [sizeAux_eq_size 64 x hx]
  have := Nat.size_le.mpr hx
  omega

theorem land_pred_eq_zero_iff {x : ℕ} (hx : 0 < x) :
    x &&& (x - 1) = 0 ↔ ∃ k, x = 2 ^ k := by
  constructor
  · intro h
    set s := Nat.size x with hsdef
    refine ⟨s - 1, ?_⟩
    have hs : 0 < s := Nat.size_pos.mpr hx
    have h1 : 2 ^ (s - 1) ≤ x := Nat.lt_size.mp (by omega)
    have h2 : x < 2 ^ s := Nat.lt_size_self x
    have hss : 2 ^ s = 2 * 2 ^ (s - 1) := by
      rw [← pow_succ']
      congr 1
      omega
    by_contra hne
    have hrlt : x - 2 ^ (s - 1) < 2 ^ (s - 1) := by omega
    have hr1lt : x - 2 ^ (s - 1) - 1 < 2 ^ (s - 1) := by omega
    have hx1 : x = 2 ^ (s - 1) + (x - 2 ^ (s - 1)) := by omega
    have hx2 : x - 1 = 2 ^ (s - 1) + (x - 2 ^ (s - 1) - 1) := by omega
    have t1 : Nat.testBit x (s - 1) = true := by
      conv_lhs => rw [hx1]
      rw [Nat.testBit_two_pow_add_eq, Nat.testBit_lt_two_pow hrlt]
      rfl
    have t2 : Nat.testBit (x - 1) (s - 1) = true := by
      conv_lhs => rw [hx2]
      rw [Nat.testBit_two_pow_add_eq, Nat.testBit_lt_two_pow hr1lt]
      rfl
    have tand : Nat.testBit (x &&& (x - 1)) (s - 1) = true := by
      rw [Nat.testBit_and, t1, t2]
      rfl
    rw [h, Nat.zero_testBit] at tand
    exact Bool.false_ne_true tand
  · rintro ⟨k, rfl⟩
    rw [Nat.and_pow_two_sub_one_eq_mod, Nat.mod_self]

theorem clog_two_eq {x : ℕ} (hx : 0 < x) (hnp : ¬∃ k, x = 2 ^ k) :
    Nat.clog 2 x = Nat.size x := by
  have hs : 0 < Nat.size x := Nat.size_pos.mpr hx
  have h1 : 2 ^ (Nat.size x - 1) ≤ x := Nat.lt_size.mp (by omega)
  have h2 : x < 2 ^ Nat.size x := Nat.lt_size_self x
  have hne : x ≠ 2 ^ (Nat.size x - 1) := fun h => hnp ⟨_, h⟩
  apply le_antisymm
  · exact (Nat.le_pow_iff_clog_le one_lt_two).mp h2.le
  · have : Nat.size x - 1 < Nat.clog 2 x :=
      (Nat.pow_lt_iff_lt_clog one_lt_two).mp (by omega)
    omega

theorem dudlGo_zero_bit_len : ∀ (n d rem : ℕ) (ds : List ℕ), 0 < rem →
    dudlGo 0 (2 ^ 0 - 1) n d ds rem = List.replicate n 0 := by
  intro n
  induction n with
  | zero => intros; rfl
  | succ n ih =>
    intro d rem ds hr
    simp only [dudlGo, Nat.compare_eq_gt.mpr hr, List.replicate_succ]
    congr 1
    · simp
    · simpa using ih d rem ds hr

/-! ### Claim theorems -/

/-- C1: for every `BigUint` `e`, every `num_limbs n ≥ 1` and every `bit_len b`
with `64 ≤ b < 128`, if `e < 2 ^ (n * b)` then composing the limbs produced by
`decompose_biguint` (each limb read back as an unsigned integer via its
canonical field representative) with `compose` yields exactly `e`.  The
hypothesis `2 ^ b ≤ p` is the spec's standing assumption that each limb is
representable as one field element. -/
theorem C1_compose_decompose_biguint (p e n b : ℕ) (hn : 1 ≤ n) (hb64 : 64 ≤ b)
    (hb128 : b < 128) (hp : 2 ^ b ≤ p) (he : e < 2 ^ (n * b)) :
    compose (decompose_biguint p e n b) b = e := by
  rw [decompose_biguint_eq hb64 hb128, show max n 1 = n by omega, natLimbs_map_mod hp,
    compose_natLimbs, mul_comm b n, Nat.mod_eq_of_lt he]

/-- Witness for C1 at `p = 2 ^ 64`, `e = 12345`, `n = 1`, `b = 64`. -/
theorem C1_witness :
    (1 ≤ 1 ∧ 64 ≤ 64 ∧ 64 < 128 ∧ 2 ^ 64 ≤ 2 ^ 64 ∧ 12345 < 2 ^ (1 * 64)) ∧
    compose (decompose_biguint (2 ^ 64) 12345 1 64) 64 = 12345 :=
  ⟨⟨le_rfl, le_rfl, by norm_num, le_rfl, by norm_num⟩,
    C1_compose_decompose_biguint (2 ^ 64) 12345 1 64 le_rfl le_rfl (by norm_num) le_rfl
      (by norm_num)⟩

/-- C2: for every `bit_len b < 64` and sequence of 64-bit words,
`decompose_u64_digits_to_limbs` returns exactly `number_of_limbs` values, the
`i`-th being `(v >> (i*b)) % 2^b` for `v` the little-endian composition of the
words; each value is `< 2 ^ b`, bits beyond `n * b` are discarded, and
decomposing `2 ^ 100 + 5` with `n = 2`, `b = 8` yields `[5, 0]`. -/
theorem C2_decompose_u64_digits_to_limbs_spec (ws : List ℕ) (n b : ℕ) (hb : b < 64)
    (hws : ∀ w ∈ ws, w < 2 ^ 64) :
    (decompose_u64_digits_to_limbs ws n b).length = n ∧
    (∀ i, i < n → (decompose_u64_digits_to_limbs ws n b).getD i 0
        = valWords ws / 2 ^ (i * b) % 2 ^ b) ∧
    (∀ x ∈ decompose_u64_digits_to_limbs ws n b, x < 2 ^ b) ∧
    decompose_u64_digits_to_limbs (toU64Digits (2 ^ 100 + 5)) 2 8 = [5, 0] := by
  rw [decompose_u64_digits_to_limbs_eq hb hws]
  refine ⟨natLimbs_length b n (valWords ws), fun i hi => natLimbs_getD hi,
    natLimbs_mem_lt, ?_⟩
  decide

/-- Witness for C2 at `ws = [3]`, `n = 1`, `b = 2`. -/
theorem C2_witness :
    (2 < 64 ∧ ∀ w ∈ [(3 : ℕ)], w < 2 ^ 64) ∧
    (decompose_u64_digits_to_limbs [3] 1 2).length = 1 :=
  ⟨⟨by norm_num, by decide⟩,
    (C2_decompose_u64_digits_to_limbs_spec [3] 1 2 (by norm_num) (by decide)).1⟩

/-- C3: converting a field element to its balanced signed representative and
back reconstructs it: `bigint_to_fe (fe_to_bigint f) = f` (and applying
`fe_to_bigint` again gives back `fe_to_bigint f`); concretely
`fe_to_bigint (bigint_to_fe (-1)) = -1`. -/
theorem C3_signed_roundtrip (p f : ℕ) (hp : 2 < p) (hp256 : p ≤ 2 ^ 256) (hf : f < p) :
    bigint_to_fe p (fe_to_bigint p f) = some f ∧
    (bigint_to_fe p (fe_to_bigint p f)).map (fe_to_bigint p) = some (fe_to_bigint p f) ∧
    (bigint_to_fe p (-1 : ℤ)).map (fe_to_bigint p) = some (-1 : ℤ) := by
  have hm : modulus p = p := modulus_eq (by omega)
  have hmain : bigint_to_fe p (fe_to_bigint p f) = some f := by
    unfold fe_to_bigint fe_to_biguint
    rw [hm]
    by_cases hle : f ≤ p / 2
    · rw [if_pos hle]
      unfold bigint_to_fe
      rw [if_neg (by omega : ¬((f : ℕ) : ℤ) < 0), Int.natAbs_ofNat,
        from_u64_digits_toU64Digits (lt_of_lt_of_le hf hp256), Nat.mod_eq_of_lt hf]
    · rw [if_neg hle]
      unfold bigint_to_fe
      rw [if_pos (by omega : -((p - f : ℕ) : ℤ) < 0), Int.natAbs_neg, Int.natAbs_ofNat,
        from_u64_digits_toU64Digits (lt_of_lt_of_le (by omega : p - f < p) hp256)]
      simp only [Option.map_some']
      congr 1
      rw [Nat.mod_eq_of_lt (by omega : p - f < p)]
      unfold fneg
      rw [show p - (p - f) = f by omega, Nat.mod_eq_of_lt hf]
  have hneg1 : bigint_to_fe p (-1 : ℤ) = some (p - 1) := by
    unfold bigint_to_fe
    rw [if_pos (by norm_num : (-1 : ℤ) < 0), show ((-1 : ℤ)).natAbs = 1 from rfl,
      from_u64_digits_toU64Digits (by norm_num : (1 : ℕ) < 2 ^ 256)]
    simp only [Option.map_some']
    congr 1
    rw [Nat.mod_eq_of_lt (by omega : 1 < p)]
    unfold fneg
    exact Nat.mod_eq_of_lt (by omega)
  have hlast : fe_to_bigint p (p - 1) = -1 := by
    unfold fe_to_bigint fe_to_biguint
    rw [hm, if_neg (by omega : ¬(p - 1 ≤ p / 2)), show p - (p - 1) = 1 by omega]
    norm_num
  refine ⟨hmain, ?_, ?_⟩
  · rw [hmain]
    rfl
  · rw [hneg1]
    simp only [Option.map_some']
    rw [hlast]

/-- Witness for C3 at `p = 101`, `f = 77`. -/
theorem C3_witness :
    (2 < 101 ∧ 101 ≤ 2 ^ 256 ∧ 77 < 101) ∧
    bigint_to_fe 101 (fe_to_bigint 101 77) = some 77 :=
  ⟨⟨by norm_num, by norm_num, by norm_num⟩,
    (C3_signed_roundtrip 101 77 (by norm_num) (by norm_num) (by norm_num)).1⟩

/-- C4: with `u` the canonical unsigned value of `f` and modulus `p`: if
`u ≤ p / 2` then `fe_to_bigint f = u`, otherwise `u - p`; the result lies in
the balanced interval `(-p/2, p/2]` (stated as `-p < 2 * result ≤ p`), with
`p - 1` mapping to `-1` and `(p - 1) / 2` mapping to itself. -/
theorem C4_fe_to_bigint_spec (p f : ℕ) (hp : 2 < p) (hf : f < p) :
    (f ≤ p / 2 → fe_to_bigint p f = (f : ℤ)) ∧
    (p / 2 < f → fe_to_bigint p f = (f : ℤ) - (p : ℤ)) ∧
    (-(p : ℤ) < 2 * fe_to_bigint p f ∧ 2 * fe_to_bigint p f ≤ (p : ℤ)) ∧
    fe_to_bigint p (p - 1) = -1 ∧
    fe_to_bigint p ((p - 1) / 2) = (((p - 1) / 2 : ℕ) : ℤ) := by
  have hm : modulus p = p := modulus_eq (by omega)
  have h1 : f ≤ p / 2 → fe_to_bigint p f = (f : ℤ) := by
    intro h
    unfold fe_to_bigint fe_to_biguint
    rw [hm, if_pos h]
  have h2 : p / 2 < f → fe_to_bigint p f = (f : ℤ) - (p : ℤ) := by
    intro h
    unfold fe_to_bigint fe_to_biguint
    rw [hm, if_neg (by omega)]
    omega
  refine ⟨h1, h2, ?_, ?_, ?_⟩
  · by_cases h : f ≤ p / 2
    · rw [h1 h]
      constructor <;> omega
    · rw [h2 (by omega)]
      constructor <;> omega
  · unfold fe_to_bigint fe_to_biguint
    rw [hm, if_neg (by omega : ¬(p - 1 ≤ p / 2)), show p - (p - 1) = 1 by omega]
    norm_num
  · unfold fe_to_bigint fe_to_biguint
    rw [hm, if_pos (by omega : (p - 1) / 2 ≤ p / 2)]

/-- Witness for C4 at `p = 101`, `f = 77`. -/
theorem C4_witness :
    (2 < 101 ∧ 77 < 101) ∧ fe_to_bigint 101 77 = (77 : ℤ) - (101 : ℤ) :=
  ⟨⟨by norm_num, by norm_num⟩,
    (C4_fe_to_bigint_spec 101 77 (by norm_num) (by norm_num)).2.1 (by norm_num)⟩

/-- C5: `decompose` routes to `decompose_biguint` on `fe_to_biguint e` when
`bit_len > 64`, and otherwise (every `bit_len ≤ 64`) applies the digit-limb
codec to the element's own four 64-bit words, mapping each raw `u64` limb back
into the field directly. -/
theorem C5_decompose_dispatch (p e n b : ℕ) :
    (64 < b → decompose p e n b = decompose_biguint p (fe_to_biguint e) n b) ∧
    (b ≤ 64 → decompose p e n b
      = (decompose_u64_digits_to_limbs (toWords4 e) n b).map (from_u64 p)) := by
  constructor
  · intro h
    unfold decompose
    rw [if_pos h]
  · intro h
    unfold decompose decompose_fe_to_u64_limbs to_u64_limbs
    rw [if_neg (by omega)]

/-- Witness for C5 at both branches: `b = 70` (wide) and `b = 8` (narrow). -/
theorem C5_witness :
    (64 < 70 ∧ decompose 7 3 2 70 = decompose_biguint 7 (fe_to_biguint 3) 2 70) ∧
    (8 ≤ 64 ∧ decompose 7 3 2 8
      = (decompose_u64_digits_to_limbs (toWords4 3) 2 8).map (from_u64 7)) :=
  ⟨⟨by norm_num, (C5_decompose_dispatch 7 3 2 70).1 (by norm_num)⟩,
    ⟨by norm_num, (C5_decompose_dispatch 7 3 2 8).2 (by norm_num)⟩⟩

/-- C6 counterexample: with `num_limbs = 0` (and `e = 0`, `bit_len = 64`,
`p = 7`) `decompose_biguint` returns a vector of length 1, not 0: the first
limb is produced unconditionally before the `(1..num_limbs)` loop. -/
theorem C6_counterexample : (decompose_biguint 7 0 0 64).length ≠ 0 := by decide

/-- C6 (amended): the vector returned by `decompose_biguint` has length
exactly `num_limbs` whenever `num_limbs ≥ 1`; for `num_limbs = 0` the length
is 1 (the unconditional first limb), i.e. the length is `max num_limbs 1`. -/
theorem C6_decompose_biguint_length (p e n b : ℕ) :
    (decompose_biguint p e n b).length = max n 1 := by
  simp only [decompose_biguint, List.length_cons, dbGo_length]
  omega

/-- C7 counterexample: at `e = 2 ^ 256` (five 64-bit words) the slice copy in
`from_u64_digits` panics (modelled as `none`); `biguint_to_fe` is not total
and does not truncate to the low-order words. -/
theorem C7_counterexample : biguint_to_fe 7 (2 ^ 256) = none := by decide

/-- C7 (amended): `biguint_to_fe e` succeeds exactly when `e` fits in four
64-bit words (`e < 2 ^ 256`), returning the field element built from all of
`e`'s words (the value `e` reduced modulo `p`); for larger `e` the digit slice
exceeds four words and the call panics instead of truncating. -/
theorem C7_biguint_to_fe_eq (p e : ℕ) :
    biguint_to_fe p e = if e < 2 ^ 256 then some (e % p) else none := by
  by_cases h : e < 2 ^ 256
  · rw [if_pos h]
    exact from_u64_digits_toU64Digits h
  · rw [if_neg h]
    unfold biguint_to_fe from_u64_digits
    rw [if_neg (by
      have := toU64Digits_length_gt (le_of_not_lt h)
      omega)]

/-- C8: `decompose_bigint` equals `decompose_biguint` on the magnitude `|e|`,
with every limb replaced by its additive field negation when `e` is negative
and unchanged when `e` is non-negative. -/
theorem C8_decompose_bigint_spec (p : ℕ) (e : ℤ) (n b : ℕ) :
    (e < 0 → decompose_bigint p e n b
      = (decompose_biguint p e.natAbs n b).map (fneg p)) ∧
    (0 ≤ e → decompose_bigint p e n b = decompose_biguint p e.natAbs n b) := by
  constructor
  · intro h
    unfold decompose_bigint
    rw [if_pos h]
  · intro h
    unfold decompose_bigint
    rw [if_neg (by omega)]

/-- Witness for C8 at `e = -3` and `e = 3`. -/
theorem C8_witness :
    ((-3 : ℤ) < 0 ∧ decompose_bigint 7 (-3) 1 64
      = (decompose_biguint 7 ((-3 : ℤ)).natAbs 1 64).map (fneg 7)) ∧
    ((0 : ℤ) ≤ 3 ∧ decompose_bigint 7 3 1 64
      = decompose_biguint 7 ((3 : ℤ)).natAbs 1 64) :=
  ⟨⟨by norm_num, (C8_decompose_bigint_spec 7 (-3) 1 64).1 (by norm_num)⟩,
    ⟨by norm_num, (C8_decompose_bigint_spec 7 3 1 64).2 (by norm_num)⟩⟩

/-- C9: for `x ≠ 0` (within `u64` range), `log2_ceil x = ⌈log₂ x⌉`
(`Nat.clog 2 x`), computed as `bit_length x - 1` when `x` is an exact power of
two and `bit_length x` otherwise; in particular `log2_ceil 1 = 0`,
`log2_ceil 2 = 1`, `log2_ceil 3 = 2`, `log2_ceil 4 = 2`, and `bit_length`
satisfies `bit_length 0 = 0`, `bit_length 1 = 1`, `bit_length (2^63) = 64`. -/
theorem C9_log2_ceil_spec (x : ℕ) (hx : x ≠ 0) (hx64 : x < 2 ^ 64) :
    log2_ceil x = Nat.clog 2 x ∧
    ((∃ k, x = 2 ^ k) → log2_ceil x = bit_length x - 1) ∧
    (¬(∃ k, x = 2 ^ k) → log2_ceil x = bit_length x) ∧
    (log2_ceil 1 = 0 ∧ log2_ceil 2 = 1 ∧ log2_ceil 3 = 2 ∧ log2_ceil 4 = 2) ∧
    (bit_length 0 = 0 ∧ bit_length 1 = 1 ∧ bit_length (2 ^ 63) = 64) := by
  have hx0 : 0 < x := Nat.pos_of_ne_zero hx
  have hsize : sizeAux 64 x = Nat.size x := sizeAux_eq_size 64 x hx64
  have hs64 : Nat.size x ≤ 64 := Nat.size_le.mpr hx64
  have hbl : bit_length x = Nat.size x := bit_length_eq_size hx64
  have hiff := land_pred_eq_zero_iff hx0
  have hlog : log2_ceil x = Nat.size x - (if x &&& (x - 1) = 0 then 1 else 0) := by
    unfold log2_ceil leading_zeros
    rw [hsize]
    omega
  refine ⟨?_, ?_, ?_, ⟨by decide, by decide, by decide, by decide⟩,
    ⟨by decide, by decide, by decide⟩⟩
  · by_cases hpow : x &&& (x - 1) = 0
    · obtain ⟨k, hk⟩ := hiff.mp hpow
      subst hk
      rw [hlog, if_pos hpow, Nat.size_pow, Nat.clog_pow 2 k one_lt_two]
      omega
    · rw [hlog, if_neg hpow, clog_two_eq hx0 (fun hE => hpow (hiff.mpr hE))]
      omega
  · intro hE
    rw [hlog, if_pos (hiff.mpr hE), hbl]
  · intro hn
    rw [hlog, if_neg (fun h => hn (hiff.mp h)), hbl]
    omega

/-- Witness for C9 at `x = 3`. -/
theorem C9_witness :
    (3 ≠ 0 ∧ 3 < 2 ^ 64) ∧ log2_ceil 3 = Nat.clog 2 3 :=
  ⟨⟨by norm_num, by norm_num⟩,
    (C9_log2_ceil_spec 3 (by norm_num) (by norm_num)).1⟩

/-- C10: calling `decompose_u64_digits_to_limbs` with `bit_len = 0` (allowed
by the precondition `bit_len < 64`) returns exactly `number_of_limbs` limbs,
all zero, for every input word sequence (in particular the result does not
depend on any word beyond the first, which is the only one ever pulled). -/
theorem C10_decompose_u64_digits_to_limbs_zero (ws : List ℕ) (n : ℕ) :
    decompose_u64_digits_to_limbs ws n 0 = List.replicate n 0 := by
  unfold decompose_u64_digits_to_limbs
  exact dudlGo_zero_bit_len n (ws.headD 0) 64 ws.tail (by norm_num)

end Halo2Base
